import Mathlib

/-!
# Verification of `kbc/models.py` (Query-Answering-In-Knowledge-Space)

Shallow embedding of the knowledge-base-completion models and their
evaluation/inference routines:

* `KBCModel.get_ranking` (chunked, filtered ranking) — embedded as
  `get_ranking` below over an abstract `RankModel` capturing the methods
  the source calls (`get_rhs`, `get_queries`, `score`, `sizes[2]`);
* the `CP` and `ComplEx` scoring variants (`CP.score`, `CP.score_emb`,
  `ComplEx.score`);
* the nearest-neighbour matcher (`__closest_vector__`,
  `__closest_matrix__`, `__expanded_pairwise_distances__`);
* the projected-gradient-descent loop of
  `KBCModel.projected_gradient_descent`.

Real-valued tensor entries are modelled as rationals (`ℚ`) where the code
only does field arithmetic and comparisons, and as reals (`ℝ`) where the
library primitives involve square roots (`torch.pairwise_distance`,
`torch.cosine_similarity`).  Python `while` loops are modelled as
structural recursion on an explicit fuel counter; the fuel supplied by the
top-level entry points (`numEnt` query chunks, `queries.length` batches,
`max_steps` optimizer iterations) is provably sufficient whenever the
corresponding step size is positive, so no behaviour is lost on the inputs
the theorems speak about.  (For a zero step size the source loops forever;
the model instead stops when the fuel runs out.)
-/

/-- An evaluation triple `(lhs, rel, rhs)` of ids, as one row of the
`queries` tensor. -/
abbrev Query : Type := ℕ × ℕ × ℕ

/-- The `filters` dictionary: `filters[(lhs, rel)]` is the list of rhs ids
to filter from the ranking.  Modelled as a total map (the source raises
`KeyError` on a missing key; every key the claims touch is present). -/
abbrev Filters : Type := ℕ × ℕ → List ℕ

/-- The dictionary key `(query[0].item(), query[1].item())` of a query row. -/
def qKey (q : Query) : ℕ × ℕ := (q.1, q.2.1)

/-- The true rhs `queries[b_begin + i, 2].item()` of a query row. -/
def qObj (q : Query) : ℕ := q.2.2

/-- Abstraction of the `KBCModel` interface as used by `get_ranking`:
`numEnt = self.sizes[2]`, `rhsW` the candidate-side embedding table read by
`get_rhs` (both `CP.get_rhs` and `ComplEx.get_rhs` return
`weight.data[chunk_begin : chunk_begin + chunk_size].transpose(0, 1)`),
`qEmb` one row of `get_queries`, and `score` one row of `score`. -/
structure RankModel where
  numEnt : ℕ
  width : ℕ
  rhsW : ℕ → ℕ → ℚ
  qEmb : Query → ℕ → ℚ
  score : Query → ℚ

/-- The masking constant `-1e6` written by
`scores[i, torch.LongTensor(...)] = -1e6`. -/
def sentinel : ℚ := -1000000

/-- Entry `(i, j)` of `scores = q @ rhs`: the bulk score of query `q`
against global candidate `k = c_begin + j`, i.e. the dot product of the
`get_queries` row with column `j` of
`get_rhs c_begin chunk_size = rhsW[c_begin : c_begin + cs]ᵀ`. -/
def RankModel.bulk (m : RankModel) (q : Query) (k : ℕ) : ℚ :=
  ∑ d ∈ Finset.range m.width, m.qEmb q d * m.rhsW k d

/-- One masked row of `scores` after the filter loop.  In the chunked
branch (`chunk_size < self.sizes[2]`) column `j` is overwritten with the
sentinel iff some filter entry `x` satisfies `c_begin ≤ x < c_begin + cs`
and `x - c_begin = j`, i.e. iff `c_begin + j ∈ filt ∧ j < cs`; in the
unchunked branch the filter entries are used as global column indices. -/
def maskedScore (E cs c_begin : ℕ) (filt : List ℕ) (raw : ℕ → ℚ) (j : ℕ) : ℚ :=
  if cs < E then
    if c_begin + j ∈ filt ∧ j < cs then sentinel else raw j
  else
    if j ∈ filt then sentinel else raw j

/-- `torch.sum((scores >= targets).float(), dim=1)` for one row: the number
of columns of the current chunk (the slice
`rhsW[c_begin : c_begin + cs]` has `min cs (E - c_begin)` rows) whose
masked score is `≥` the row's target. -/
def rowCount (E cs c_begin : ℕ) (filt : List ℕ) (raw : ℕ → ℚ) (target : ℚ) : ℕ :=
  ((Finset.range (min cs (E - c_begin))).filter
    (fun j => target ≤ maskedScore E cs c_begin filt raw j)).card

/-- The `for i, query in enumerate(these_queries)` loop of `get_ranking`:
for each row it reads `filter_out = filters[(q0, q1)]`, appends the row's
true rhs **in place** (`filter_out += [...]` mutates the list stored in the
dictionary), masks the row, and the row's contribution to
`ranks[b_begin + i]` is counted from the masked row.  Returns the mutated
dictionary and the per-row counts. -/
def processBatch (m : RankModel) (cs c_begin : ℕ) :
    List Query → Filters → Filters × List ℕ
  | [], f => (f, [])
  | q :: rest, f =>
    let filt := f (qKey q) ++ [qObj q]
    let f' := Function.update f (qKey q) filt
    let cnt := rowCount m.numEnt cs c_begin filt
      (fun j => m.bulk q (c_begin + j)) (m.score q)
    let rec' := processBatch m cs c_begin rest f'
    (rec'.1, cnt :: rec'.2)

/-- The inner `while b_begin < len(queries)` loop: process
`queries[b_begin : b_begin + batch_size]`, advance `b_begin` by
`batch_size`.  The per-row counts of all batches are returned in query
order (they are added to the disjoint slices
`ranks[b_begin : b_begin + batch_size]`).  The fuel `queries.length`
supplied by `chunkLoop` suffices whenever `0 < bs`. -/
def batchLoop (m : RankModel) (cs c_begin bs : ℕ) (qs : List Query) :
    ℕ → ℕ → Filters → Filters × List ℕ
  | 0, _, f => (f, [])
  | fuel + 1, b_begin, f =>
    if b_begin < qs.length then
      let these := (qs.drop b_begin).take bs
      let step := processBatch m cs c_begin these f
      let rest := batchLoop m cs c_begin bs qs fuel (b_begin + bs) step.1
      (rest.1, step.2 ++ rest.2)
    else (f, [])

/-- The outer `while c_begin < self.sizes[2]` loop: one pass of the batch
loop per candidate chunk, accumulating the counts into `ranks`
(`ranks[...] += torch.sum(...)`), advancing `c_begin` by `chunk_size`.
The fuel `numEnt` supplied by `get_ranking` suffices whenever `0 < cs`. -/
def chunkLoop (m : RankModel) (qs : List Query) (bs cs : ℕ) :
    ℕ → ℕ → Filters → List ℕ → List ℕ × Filters
  | 0, _, f, ranks => (ranks, f)
  | fuel + 1, c_begin, f, ranks =>
    if c_begin < m.numEnt then
      let pass := batchLoop m cs c_begin bs qs qs.length 0 f
      chunkLoop m qs bs cs fuel (c_begin + cs) pass.1
        (List.zipWith (· + ·) ranks pass.2)
    else (ranks, f)

/-- `KBCModel.get_ranking`.  `ranks` starts at `torch.ones(len(queries))`;
a negative `chunk_size` is replaced by the full candidate count
`self.sizes[2]`.  Returns the ranks together with the (mutated) filter
dictionary, which the Python version updates in place. -/
def get_ranking (m : RankModel) (queries : List Query) (filters : Filters)
    (batch_size : ℕ) (chunk_size : ℤ) : List ℕ × Filters :=
  let cs : ℕ := if chunk_size < 0 then m.numEnt else chunk_size.toNat
  chunkLoop m queries batch_size cs m.numEnt 0 filters
    (List.replicate queries.length 1)

/-! ## The CP model -/

/-- The `CP` model: three embedding tables of width `rank`. -/
structure CP where
  sizes : ℕ × ℕ × ℕ
  rank : ℕ
  lhsW : ℕ → ℕ → ℚ
  relW : ℕ → ℕ → ℚ
  rhsW : ℕ → ℕ → ℚ

/-- One row of `CP.score`: `torch.sum(lhs * rel * rhs, 1)`. -/
def CP.score (c : CP) (x : Query) : ℚ :=
  ∑ d ∈ Finset.range c.rank, c.lhsW x.1 d * c.relW x.2.1 d * c.rhsW x.2.2 d

/-- One row of `CP.get_queries`: `lhs(queries[:,0]).data * rel(queries[:,1]).data`. -/
def CP.getQueries (c : CP) (x : Query) (d : ℕ) : ℚ :=
  c.lhsW x.1 d * c.relW x.2.1 d

/-- The `RankModel` view of a `CP` model, as used by `get_ranking`. -/
def CP.toRankModel (c : CP) : RankModel :=
  ⟨c.sizes.2.2, c.rank, c.rhsW, c.getQueries, c.score⟩

/-- Row sum of the elementwise triple product `lhs * rel * rhs` for one row
of a batch (`torch.sum(lhs * rel * rhs, 1)` for that row). -/
def rowTriProd (l r o : List ℚ) : ℚ :=
  (List.zipWith (· * ·) (List.zipWith (· * ·) l r) o).sum

/-- `CP.score_emb`: `torch.mean(torch.sum(lhs * rel * rhs, 1, keepdim=True))`
on batches given as lists of embedding rows — the **mean over the batch**
of the per-row sums. -/
def CP.score_emb (lhs rel rhs : List (List ℚ)) : ℚ :=
  let rows := List.zipWith (fun lr o => (List.zipWith (· * ·) lr o).sum)
    (List.zipWith (fun l r => List.zipWith (· * ·) l r) lhs rel) rhs
  rows.sum / rows.length

/-! ## The ComplEx model -/

/-- Elementwise product of two embedding rows. -/
def vmul (a b : List ℚ) : List ℚ := List.zipWith (· * ·) a b

/-- Elementwise sum of two embedding rows. -/
def vadd (a b : List ℚ) : List ℚ := List.zipWith (· + ·) a b

/-- Elementwise difference of two embedding rows. -/
def vsub (a b : List ℚ) : List ℚ := List.zipWith (· - ·) a b

/-- The `ComplEx` model: entity table `emb0` and relation table `emb1`,
rows of raw width `2 * rank` (real half then imaginary half). -/
structure ComplExM where
  sizes : ℕ × ℕ × ℕ
  rank : ℕ
  emb0 : ℕ → List ℚ
  emb1 : ℕ → List ℚ

/-- One row of `ComplEx.score`: split each embedding into
`(v[:, :rank], v[:, rank:])` and sum
`(lhs0*rel0 - lhs1*rel1)*rhs0 + (lhs0*rel1 + lhs1*rel0)*rhs1` over
dimensions. -/
def ComplExM.score (c : ComplExM) (x : Query) : ℚ :=
  let lhs := c.emb0 x.1
  let rel := c.emb1 x.2.1
  let rhs := c.emb0 x.2.2
  let l0 := lhs.take c.rank
  let l1 := lhs.drop c.rank
  let r0 := rel.take c.rank
  let r1 := rel.drop c.rank
  let o0 := rhs.take c.rank
  let o1 := rhs.drop c.rank
  (vadd (vmul (vsub (vmul l0 r0) (vmul l1 r1)) o0)
    (vmul (vadd (vmul l0 r1) (vmul l1 r0)) o1)).sum

/-! ## The nearest-neighbour matcher

`__closest_vector__`, `__closest_matrix__` and
`__expanded_pairwise_distances__` call `torch.pairwise_distance` and
`torch.cosine_similarity`, whose semantics involve square roots, so this
part is modelled over `ℝ`.  The `.cuda()` device-placement `try/except` at
the top of `__closest_matrix__` has no numeric effect and is not
modelled. -/

/-- Dot product of two vectors (rows as lists). -/
noncomputable def rdot (x y : List ℝ) : ℝ := (List.zipWith (· * ·) x y).sum

/-- Squared Euclidean norm of a vector. -/
noncomputable def sqnorm (x : List ℝ) : ℝ := rdot x x

/-- The `eps=1e-8` passed to both `torch.pairwise_distance` and
`torch.cosine_similarity` in `__closest_vector__`. -/
noncomputable def eps8 : ℝ := 1 / 100000000

/-- `torch.pairwise_distance(x, y, p=2, eps=1e-8)` for one candidate row:
`‖x - y + eps‖₂ = sqrt (Σᵢ (xᵢ - yᵢ + eps)²)`. -/
noncomputable def pairwiseDist (x y : List ℝ) : ℝ :=
  Real.sqrt ((List.zipWith (fun a b => (a - b + eps8) ^ 2) x y).sum)

/-- `torch.cosine_similarity(x, y, eps=1e-8)` for one candidate row:
`x·y / max (‖x‖₂ * ‖y‖₂) eps`. -/
noncomputable def cosineSim (x y : List ℝ) : ℝ :=
  rdot x y / max (Real.sqrt (sqnorm x) * Real.sqrt (sqnorm y)) eps8

/-- `torch.argmin` on a non-empty 1-D tensor: index of the first minimal
value.  `i` is the index of the next element of `rest`, `bi`/`bv` the best
index and value so far; a later value replaces the best only if strictly
smaller. -/
noncomputable def argminAux : ℕ → ℕ → ℝ → List ℝ → ℕ
  | _, bi, _, [] => bi
  | i, bi, bv, v :: rest =>
    if v < bv then argminAux (i + 1) i v rest else argminAux (i + 1) bi bv rest

/-- `torch.argmin` over a list of values (the empty case never reaches the
kernel: callers guard it, as `torch.argmin` raises on an empty input). -/
noncomputable def argminL : List ℝ → ℕ
  | [] => 0
  | v :: rest => argminAux 1 0 v rest

/-- Substring test at the head of a character list. -/
def leadsWith : List Char → List Char → Bool
  | [], _ => true
  | _ :: _, [] => false
  | c :: cs, d :: ds => c = d && leadsWith cs ds

/-- Substring containment on character lists. -/
def hasSub (pat : List Char) : List Char → Bool
  | [] => leadsWith pat []
  | d :: ds => leadsWith pat (d :: ds) || hasSub pat ds

/-- Python's `pat in s` on strings. -/
def strHas (s pat : String) : Bool := hasSub pat.data s.data

/-- Python's `s.lower()`. -/
def strLower (s : String) : String := ⟨s.data.map Char.toLower⟩

/-- `KBCModel.__closest_vector__`.  The metric branches assign `dists`;
with an unrecognized metric `dists` is never assigned, the subsequent
`torch.argmin(dists)` raises `UnboundLocalError`, the broad `except`
prints and returns `None`.  An empty search list makes `torch.argmin`
raise, also yielding `None`.  Otherwise the result is
`(min_ind, search_list[min_ind])`. -/
noncomputable def closestVector (objVec : List ℝ) (searchList : List (List ℝ))
    (metric : String) : Option (ℕ × List ℝ) :=
  let lm := strLower metric
  let distsO : Option (List ℝ) :=
    if strHas lm "euclid" || strHas lm "l2" then
      some (searchList.map (fun y => pairwiseDist objVec y))
    else if strHas lm "cos" then
      some (searchList.map (fun y => cosineSim objVec y))
    else none
  match distsO with
  | none => none
  | some dists =>
    if dists.isEmpty then none
    else some (argminL dists, searchList.getD (argminL dists) [])

/-- `KBCModel.__expanded_pairwise_distances__`:
`dist[i, j] = ‖x i‖² + ‖y j‖² - 2 * (x i · y j)`. -/
noncomputable def expandedPairwiseDistances (x y : List (List ℝ)) : List (List ℝ) :=
  x.map (fun xi => y.map (fun yj => sqnorm xi + sqnorm yj - 2 * rdot xi yj))

/-- Result of `__closest_matrix__`: either the `torch.stack` of
`[min_inds.float(), dist_mins]` (rows `(index, distance)`) from the fast
Euclidean path, or the Python list built by the stable-Euclidean / cosine
loops (whose elements are `__closest_vector__` results, possibly `None`).
The initial value `closest_matrix = []` is the empty list of the second
kind. -/
inductive CMRes where
  | fastRes : List (ℕ × ℝ) → CMRes
  | listRes : List (Option (ℕ × List ℝ)) → CMRes

/-- `KBCModel.__closest_matrix__`.  Euclidean metric: `fast` uses the
expanded all-pairs distances with a row-wise `argmin` (which raises on an
empty candidate axis, caught → `None`); `stable` loops
`__closest_vector__`; an unknown method prints and bare-`raise`s, which
the enclosing `except` turns into `None`.  Cosine metric: per-row
`__closest_vector__` loop.  **An unrecognized metric matches no branch and
the function returns the initial empty list** (no error is reported). -/
noncomputable def closestMatrix (objM searchL : List (List ℝ))
    (metric method : String) : Option CMRes :=
  let lm := strLower metric
  let md := strLower method
  if strHas lm "euclid" || strHas lm "l2" then
    if strHas md "fast" then
      if searchL.isEmpty && !objM.isEmpty then none
      else
        some (CMRes.fastRes ((expandedPairwiseDistances objM searchL).map
          (fun row => (argminL row, row.getD (argminL row) 0))))
    else if strHas md "stable" then
      some (CMRes.listRes (objM.map (fun v => closestVector v searchL metric)))
    else none
  else if strHas lm "cos" then
    some (CMRes.listRes (objM.map (fun v => closestVector v searchL metric)))
  else some (CMRes.listRes [])

/-! ## The projected-gradient-descent loop

The optimization loop of `KBCModel.projected_gradient_descent`.  The Adam
step and the loss `-(score_emb(lhs, pred, obj_guess) - reg)` are modelled
abstractly: `σ` is the optimizer state (the guess plus Adam's moments),
`stepOpt` one `optimizer.step()`, and `evalLoss` the loss computed from
the current state.  Each iteration records `prev_loss = loss`, recomputes
`loss` from the current guess, then steps the optimizer and increments
`i`. -/

/-- The convergence threshold `1e-20` of the `while` condition. -/
def thr : ℚ := 1 / 10 ^ 20

/-- The `while i <= max_steps and (prev_loss - loss) > 1e-20` loop.  Fuel
`max_steps` is exact: each pass increments `i`, which starts at `1`, so at
fuel `0` the guard `i ≤ max_steps` has just failed. -/
def pgdLoop {σ : Type} (evalLoss : σ → ℚ) (stepOpt : σ → σ) (max_steps : ℕ) :
    ℕ → ℕ → ℚ → ℚ → σ → ℕ × ℚ × ℚ × σ
  | 0, i, prev, loss, s => (i, prev, loss, s)
  | fuel + 1, i, prev, loss, s =>
    if i ≤ max_steps ∧ thr < prev - loss then
      pgdLoop evalLoss stepOpt max_steps fuel (i + 1) loss (evalLoss s) (stepOpt s)
    else (i, prev, loss, s)

/-- The loop of `projected_gradient_descent` started from its initial
state: `prev_loss = 1000.`, `loss = 999.`, `i = 1`. -/
def pgd {σ : Type} (evalLoss : σ → ℚ) (stepOpt : σ → σ) (max_steps : ℕ)
    (s0 : σ) : ℕ × ℚ × ℚ × σ :=
  pgdLoop evalLoss stepOpt max_steps max_steps 1 1000 999 s0

/-- The loss computed during iteration `k` (1-based): iteration `k` reads
the state produced by `k - 1` optimizer steps; `lossAt 0` is the initial
`loss = 999.`. -/
def lossAt {σ : Type} (evalLoss : σ → ℚ) (stepOpt : σ → σ) (s0 : σ) : ℕ → ℚ
  | 0 => 999
  | k + 1 => evalLoss (stepOpt^[k] s0)

/-- The value of `prev_loss` after `k` iterations (`1000.` initially). -/
def prevAt {σ : Type} (evalLoss : σ → ℚ) (stepOpt : σ → σ) (s0 : σ) : ℕ → ℚ
  | 0 => 1000
  | k + 1 => lossAt evalLoss stepOpt s0 k

/-! ## Specification-side definitions used by the theorems -/

/-- The true-object ids appended for key `k` by one full pass over `qs`. -/
def appendedObjs (qs : List Query) (k : ℕ × ℕ) : List ℕ :=
  (qs.filter (fun q => qKey q == k)).map qObj

/-- Number of iterations the `while c_begin < numEnt` loop still performs
from position `c` with step `cs`: `⌈(numEnt - c) / cs⌉`. -/
def passesFrom (E cs c : ℕ) : ℕ := (E - c + cs - 1) / cs

/-- The filtered-rank count of query `q` over candidates `[lo, numEnt)`
against the filter set `f0 (qKey q) ∪ {qObj q}` (the query's original
filter list plus its own true object). -/
def restCount (m : RankModel) (f0 : Filters) (q : Query) (lo : ℕ) : ℕ :=
  ((Finset.Ico lo m.numEnt).filter
    (fun k => m.score q ≤
      if k ∈ f0 (qKey q) ∨ k = qObj q then sentinel else m.bulk q k)).card

/-- The closed-form filtered-rank count of query `q` over the whole
candidate range. -/
def closedCount (m : RankModel) (f0 : Filters) (q : Query) : ℕ :=
  ((Finset.range m.numEnt).filter
    (fun k => m.score q ≤
      if k ∈ f0 (qKey q) ∨ k = qObj q then sentinel else m.bulk q k)).card

/-- Invariant tying the current dictionary to the original one at `q`'s
key: the stored list may have accumulated copies of `q`'s own true object
(appended once per pass) but nothing else. -/
def filtInv (f0 f : Filters) (q : Query) : Prop :=
  (∀ x ∈ f (qKey q), x ∈ f0 (qKey q) ∨ x = qObj q) ∧
    ∀ x ∈ f0 (qKey q), x ∈ f (qKey q)

/-! ## Concrete instances used by counterexamples and witnesses -/

/-- 4 entities, rank 1, all query embeddings 1; candidate 2 scores 5,
the rest 0.  Both queries share the key `(0, 0)`. -/
def cpSharedKey : CP :=
  ⟨(4, 1, 4), 1, fun _ _ => 1, fun _ _ => 1, fun e _ => if e = 2 then 5 else 0⟩

/-- Same tables as `cpSharedKey` but evaluated on queries with distinct
keys `(0, 0)` and `(1, 0)`. -/
def cpDistinctKey : CP :=
  ⟨(4, 1, 4), 1, fun _ _ => 1, fun _ _ => 1, fun e _ => if e = 2 then 5 else 0⟩

/-- 2 entities; the true answer `0` scores `-2e6`, below the `-1e6`
masking sentinel; with filter `{1}` every candidate of the query
`(0, 0, 0)` ends up suppressed. -/
def cpAllFiltered : CP :=
  ⟨(2, 1, 2), 1, fun _ _ => 1, fun _ _ => 1, fun e _ => if e = 0 then -2000000 else 0⟩

/-- The filter dictionary `{(0, 0) ↦ [1]}` paired with `cpAllFiltered`. -/
def fAllFiltered : Filters := fun k => if k = (0, 0) then [1] else []

/-- 2 entities; the true answer `1` scores `-2e6` (below the sentinel)
and the other candidate `-1.5e6`. -/
def cpSentinelRank : CP :=
  ⟨(2, 1, 2), 1, fun _ _ => 1, fun _ _ => 1,
    fun e _ => if e = 0 then -1500000 else -2000000⟩

/-- 3 entities with candidate scores `2, 1, 0`; true answer `1`. -/
def cpRankW : CP :=
  ⟨(3, 1, 3), 1, fun _ _ => 1, fun _ _ => 1,
    fun e _ => if e = 0 then 2 else if e = 1 then 1 else 0⟩

/-- The rank-2 ComplEx instance of the end-to-end scenario: subject and
object embeddings `(1, 0, 1, 0)`, relation embedding `(1, 0, 0, 0)`. -/
def ceScenario : ComplExM :=
  ⟨(2, 1, 2), 2, fun _ => [1, 0, 1, 0], fun _ => [1, 0, 0, 0]⟩

/-! ## Helper lemmas: the filter dictionary and per-row counts -/

theorem maskedScore_congr {E cs c_begin : ℕ} {filt1 filt2 : List ℕ}
    {raw : ℕ → ℚ} (h : ∀ x, x ∈ filt1 ↔ x ∈ filt2) (j : ℕ) :
    maskedScore E cs c_begin filt1 raw j = maskedScore E cs c_begin filt2 raw j := by
  simp only [maskedScore, h]

theorem rowCount_congr {E cs c_begin : ℕ} {filt1 filt2 : List ℕ}
    {raw : ℕ → ℚ} {target : ℚ} (h : ∀ x, x ∈ filt1 ↔ x ∈ filt2) :
    rowCount E cs c_begin filt1 raw target = rowCount E cs c_begin filt2 raw target := by
  unfold rowCount
  congr 1
  apply Finset.filter_congr
  intro j _
  rw [maskedScore_congr h]

theorem processBatch_counts_length (m : RankModel) (cs c_begin : ℕ)
    (rows : List Query) (f : Filters) :
    (processBatch m cs c_begin rows f).2.length = rows.length := by
  induction rows generalizing f with
  | nil => rfl
  | cons q rest ih => simp [processBatch, ih]

/-- The dictionary after one pass: each row appends its true object to the
list stored at its key, in row order. -/
theorem processBatch_filters (m : RankModel) (cs c_begin : ℕ)
    (rows : List Query) (f : Filters) (k : ℕ × ℕ) :
    (processBatch m cs c_begin rows f).1 k = f k ++ appendedObjs rows k := by
  induction rows generalizing f with
  | nil => simp [processBatch, appendedObjs]
  | cons q rest ih =>
    simp only [processBatch, ih, appendedObjs, List.filter_cons]
    by_cases hk : qKey q = k
    · subst hk
      simp [Function.update, appendedObjs]
    · simp [Function.update, hk, Ne.symm hk, appendedObjs, beq_iff_eq]

theorem processBatch_append (m : RankModel) (cs c_begin : ℕ)
    (a b : List Query) (f : Filters) :
    processBatch m cs c_begin (a ++ b) f =
      ((processBatch m cs c_begin b (processBatch m cs c_begin a f).1).1,
        (processBatch m cs c_begin a f).2 ++
          (processBatch m cs c_begin b (processBatch m cs c_begin a f).1).2) := by
  induction a generalizing f with
  | nil => simp [processBatch]
  | cons q rest ih => simp [processBatch, ih]

/-- With a positive batch size and enough fuel, the batch loop from
`b_begin` is one pass of `processBatch` over the remaining queries. -/
theorem batchLoop_eq_processBatch (m : RankModel) (cs c_begin bs : ℕ)
    (qs : List Query) (hbs : 0 < bs) :
    ∀ fuel b_begin f, qs.length - b_begin ≤ fuel →
      batchLoop m cs c_begin bs qs fuel b_begin f =
        processBatch m cs c_begin (qs.drop b_begin) f := by
  intro fuel
  induction fuel with
  | zero =>
    intro b_begin f h
    have hb : qs.length ≤ b_begin := by omega
    simp [batchLoop, List.drop_eq_nil_of_le hb, processBatch]
  | succ fuel ih =>
    intro b_begin f h
    by_cases hlt : b_begin < qs.length
    · have hsplit : qs.drop b_begin =
          (qs.drop b_begin).take bs ++ qs.drop (b_begin + bs) := by
        rw [← List.drop_drop]
        exact (List.take_append_drop bs (qs.drop b_begin)).symm
      rw [hsplit, processBatch_append]
      have hfuel : qs.length - (b_begin + bs) ≤ fuel := by omega
      simp only [batchLoop, if_pos hlt]
      rw [ih (b_begin + bs) _ hfuel]
    · have hb : qs.length ≤ b_begin := by omega
      simp [batchLoop, hlt, List.drop_eq_nil_of_le hb, processBatch]

/-! ## Helper lemmas: the chunk loop -/

theorem passesFrom_of_le {E cs c : ℕ} (h : E ≤ c) : passesFrom E cs c = 0 := by
  unfold passesFrom
  rcases Nat.eq_zero_or_pos cs with hcs | hcs
  · simp [hcs]
  · rw [Nat.sub_eq_zero_of_le h]
    exact Nat.div_eq_of_lt (by omega)

theorem passesFrom_step {E cs c : ℕ} (h : c < E) (hcs : 0 < cs) :
    passesFrom E cs c = passesFrom E cs (c + cs) + 1 := by
  unfold passesFrom
  rcases le_or_lt (E - c) cs with hd | hd
  · have hl : (E - c + cs - 1) / cs = 1 :=
      Nat.div_eq_of_lt_le (by omega : 1 * cs ≤ E - c + cs - 1)
        (by omega : E - c + cs - 1 < (1 + 1) * cs)
    have hr : E - (c + cs) = 0 := by omega
    rw [hl, hr]
    rw [Nat.div_eq_of_lt (by omega)]
  · have hsplit : E - c + cs - 1 = (E - (c + cs) + cs - 1) + cs := by omega
    rw [hsplit, Nat.add_div_right _ hcs]

theorem passesFrom_le_self {E cs : ℕ} (hcs : 0 < cs) : passesFrom E cs 0 ≤ E := by
  unfold passesFrom
  have h : E - 0 + cs - 1 < (E + 1) * cs := by
    have : E ≤ E * cs := Nat.le_mul_of_pos_right E hcs
    have : (E + 1) * cs = E * cs + cs := by ring
    omega
  have := (Nat.div_lt_iff_lt_mul hcs).mpr h
  omega

/-- The dictionary after the whole chunk loop: one `appendedObjs` pass per
chunk iteration. -/
theorem chunkLoop_filters (m : RankModel) (qs : List Query) (bs cs : ℕ)
    (hbs : 0 < bs) (hcs : 0 < cs) :
    ∀ fuel c_begin f ranks, passesFrom m.numEnt cs c_begin ≤ fuel →
      (chunkLoop m qs bs cs fuel c_begin f ranks).2 k =
        f k ++ (List.replicate (passesFrom m.numEnt cs c_begin)
          (appendedObjs qs k)).flatten := by
  intro fuel
  induction fuel with
  | zero =>
    intro c_begin f ranks h
    have h0 : passesFrom m.numEnt cs c_begin = 0 := by omega
    simp [chunkLoop, h0]
  | succ fuel ih =>
    intro c_begin f ranks h
    by_cases hlt : c_begin < m.numEnt
    · have hstep := passesFrom_step hlt hcs
      simp only [chunkLoop, if_pos hlt]
      rw [ih (c_begin + cs) _ _ (by omega)]
      rw [batchLoop_eq_processBatch m cs c_begin bs qs hbs qs.length 0 f (by omega)]
      rw [List.drop_zero, processBatch_filters]
      rw [hstep]
      simp [List.replicate_succ, List.append_assoc]
    · rw [passesFrom_of_le (by omega)]
      simp [chunkLoop, hlt]

/-! ## Helper lemmas: counts -/

theorem restCount_zero (m : RankModel) (f0 : Filters) (q : Query) :
    restCount m f0 q 0 = closedCount m f0 q := by
  rw [restCount, closedCount, Finset.range_eq_Ico]

theorem restCount_of_le {m : RankModel} {f0 : Filters} {q : Query} {lo : ℕ}
    (h : m.numEnt ≤ lo) : restCount m f0 q lo = 0 := by
  rw [restCount, Finset.Ico_eq_empty (by omega)]
  rfl

theorem card_filter_Ico_shift (P : ℕ → Prop) [DecidablePred P] (cb cs : ℕ) :
    ((Finset.Ico cb (cb + cs)).filter P).card =
      ((Finset.range cs).filter (fun j => P (cb + j))).card := by
  have hmap : Finset.Ico cb (cb + cs) =
      (Finset.Ico 0 cs).map (addLeftEmbedding cb) := by
    rw [Finset.map_add_left_Ico, Nat.add_zero]
  rw [hmap, Finset.filter_map, Finset.card_map, Finset.range_eq_Ico]
  congr 1

/-- Splitting one chunk `[cb, cb + cs)` off the remaining candidate range. -/
theorem restCount_split {m : RankModel} (f0 : Filters) (q : Query) {cb cs : ℕ}
    (h : cb + cs ≤ m.numEnt) :
    restCount m f0 q cb =
      ((Finset.Ico cb (cb + cs)).filter
        (fun k => m.score q ≤
          if k ∈ f0 (qKey q) ∨ k = qObj q then sentinel else m.bulk q k)).card +
      restCount m f0 q (cb + cs) := by
  rw [restCount, restCount]
  rw [← Finset.Ico_union_Ico_eq_Ico (by omega : cb ≤ cb + cs) h]
  rw [Finset.filter_union]
  exact Finset.card_union_of_disjoint
    (Finset.disjoint_filter_filter (Finset.Ico_disjoint_Ico_consecutive cb (cb + cs) m.numEnt))

/-- One row's chunk count, rewritten over global candidate indices: inside
the chunk loop (`cb + cs ≤ numEnt`, so in the unchunked branch `cb = 0`),
both masking branches give the same membership test on global indices. -/
theorem rowCount_chunk {m : RankModel} {filt : List ℕ} {q : Query} {cb cs : ℕ}
    (h : cb + cs ≤ m.numEnt) :
    rowCount m.numEnt cs cb filt (fun j => m.bulk q (cb + j)) (m.score q) =
      ((Finset.Ico cb (cb + cs)).filter
        (fun k => m.score q ≤
          if k ∈ filt then sentinel else m.bulk q k)).card := by
  rw [card_filter_Ico_shift, rowCount]
  have hmin : min cs (m.numEnt - cb) = cs := by omega
  rw [hmin]
  congr 1
  apply Finset.filter_congr
  intro j hj
  rw [Finset.mem_range] at hj
  by_cases hcs : cs < m.numEnt
  · simp [maskedScore, hcs, hj]
  · have hcb : cb = 0 := by omega
    subst hcb
    simp [maskedScore, hcs]

/-- Rank counts ignore the filter's list representation: only membership
matters. -/
theorem rowCount_chunk_of_mem {m : RankModel} {filt : List ℕ} {f0 : Filters}
    {q : Query} {cb cs : ℕ} (h : cb + cs ≤ m.numEnt)
    (hmem : ∀ x, x ∈ filt ↔ x ∈ f0 (qKey q) ∨ x = qObj q) :
    rowCount m.numEnt cs cb filt (fun j => m.bulk q (cb + j)) (m.score q) =
      ((Finset.Ico cb (cb + cs)).filter
        (fun k => m.score q ≤
          if k ∈ f0 (qKey q) ∨ k = qObj q then sentinel else m.bulk q k)).card := by
  rw [rowCount_chunk h]
  congr 1
  apply Finset.filter_congr
  intro k _
  simp only [hmem k]

/-! ## Helper lemmas: list arithmetic -/

theorem zipWith_add_assoc (a b c : List ℕ) :
    List.zipWith (· + ·) (List.zipWith (· + ·) a b) c =
      List.zipWith (· + ·) a (List.zipWith (· + ·) b c) := by
  induction a generalizing b c with
  | nil => simp
  | cons x xs ih =>
    cases b with
    | nil => simp
    | cons y ys =>
      cases c with
      | nil => simp
      | cons z zs => simp [ih, Nat.add_assoc]

theorem zipWith_add_map_map {α : Type} (g h : α → ℕ) (l : List α) :
    List.zipWith (· + ·) (l.map g) (l.map h) = l.map (fun q => g q + h q) := by
  induction l with
  | nil => rfl
  | cons x xs ih => simp [ih]

theorem zipWith_add_replicate_zero (l : List ℕ) (n : ℕ) (h : l.length ≤ n) :
    List.zipWith (· + ·) l (List.replicate n 0) = l := by
  induction l generalizing n with
  | nil => rfl
  | cons x xs ih =>
    cases n with
    | zero => simp at h
    | succ k =>
      simp only [List.length_cons, Nat.succ_le_succ_iff] at h
      simp [List.replicate_succ, ih k h]

theorem zipWith_replicate_one_map {α : Type} (g : α → ℕ) (l : List α) :
    List.zipWith (· + ·) (List.replicate l.length 1) (l.map g) =
      l.map (fun q => 1 + g q) := by
  induction l with
  | nil => rfl
  | cons x xs ih => simp [List.replicate_succ, ih]

theorem getD_zipWith_add {a b : List ℕ} {i : ℕ} (ha : i < a.length)
    (hb : i < b.length) :
    (List.zipWith (· + ·) a b).getD i 0 = a.getD i 0 + b.getD i 0 := by
  induction a generalizing b i with
  | nil => simp at ha
  | cons x xs ih =>
    cases b with
    | nil => simp at hb
    | cons y ys =>
      cases i with
      | zero => rfl
      | succ n =>
        simp only [List.length_cons, Nat.succ_lt_succ_iff] at ha hb
        simpa using ih ha (b := ys) hb

/-! ## Helper lemmas: the per-pass counts under distinct keys -/

theorem filtInv_init (f0 : Filters) (q : Query) : filtInv f0 f0 q :=
  ⟨fun _ hx => Or.inl hx, fun _ hx => hx⟩

/-- With pairwise-distinct keys, the only row matching `q`'s key in a pass
is `q` itself. -/
theorem appendedObjs_self {qs : List Query} (hnd : (qs.map qKey).Nodup)
    {q : Query} (hq : q ∈ qs) : appendedObjs qs (qKey q) = [qObj q] := by
  induction qs with
  | nil => simp at hq
  | cons r rest ih =>
    rw [List.map_cons, List.nodup_cons] at hnd
    unfold appendedObjs
    rw [List.filter_cons]
    rcases List.mem_cons.mp hq with rfl | hq'
    · have hrest : rest.filter (fun p => qKey p == qKey q) = [] := by
        apply List.filter_eq_nil_iff.mpr
        intro p hp hbeq
        exact hnd.1 ((beq_iff_eq.mp hbeq) ▸ List.mem_map_of_mem qKey hp)
      simp [hrest]
    · have hne : (qKey r == qKey q) = false := by
        apply beq_eq_false_iff_ne.mpr
        intro hkey
        exact hnd.1 (hkey ▸ List.mem_map_of_mem qKey hq')
      rw [hne]
      simpa [appendedObjs] using ih hnd.2 hq'

/-- With pairwise-distinct `(lhs, rel)` keys, one pass appends exactly the
query's own object to its key, preserving the invariant. -/
theorem filtInv_step {f0 f : Filters} {qs : List Query}
    (hnd : (qs.map qKey).Nodup) (m : RankModel) (cs cb : ℕ)
    (hInv : ∀ q ∈ qs, filtInv f0 f q) :
    ∀ q ∈ qs, filtInv f0 (processBatch m cs cb qs f).1 q := by
  intro q hq
  have hchar := processBatch_filters m cs cb qs f (qKey q)
  have happ : appendedObjs qs (qKey q) = [qObj q] := appendedObjs_self hnd hq
  rcases hInv q hq with ⟨hsub, hsup⟩
  constructor
  · intro x hx
    rw [hchar, happ] at hx
    rcases List.mem_append.mp hx with hx | hx
    · exact hsub x hx
    · exact Or.inr (List.mem_singleton.mp hx)
  · intro x hx
    rw [hchar]
    exact List.mem_append_left _ (hsup x hx)

/-- Under the invariant and distinct keys, the counts of one pass are the
per-chunk closed-form counts. -/
theorem processBatch_counts_inv (m : RankModel) (f0 : Filters) {cs cb : ℕ}
    (hchunk : cb + cs ≤ m.numEnt) :
    ∀ (rows : List Query) (f : Filters), (∀ q ∈ rows, filtInv f0 f q) →
      (rows.map qKey).Nodup →
      (processBatch m cs cb rows f).2 = rows.map (fun q =>
        ((Finset.Ico cb (cb + cs)).filter
          (fun k => m.score q ≤
            if k ∈ f0 (qKey q) ∨ k = qObj q then sentinel else m.bulk q k)).card) := by
  intro rows
  induction rows with
  | nil => intro f _ _; rfl
  | cons q rest ih =>
    intro f hInv hnd
    rw [List.map_cons, List.nodup_cons] at hnd
    simp only [processBatch, List.map_cons, List.cons.injEq]
    constructor
    · rcases hInv q (List.mem_cons_self q rest) with ⟨hsub, hsup⟩
      apply rowCount_chunk_of_mem hchunk
      intro x
      constructor
      · intro hx
        rcases List.mem_append.mp hx with hx | hx
        · exact hsub x hx
        · exact Or.inr (List.mem_singleton.mp hx)
      · intro hx
        rcases hx with hx | hx
        · exact List.mem_append_left _ (hsup x hx)
        · exact List.mem_append_right _ (by simp [hx])
    · apply ih
      · intro r hr
        have hkey : qKey r ≠ qKey q := by
          intro hk
          exact hnd.1 (hk ▸ List.mem_map_of_mem qKey hr)
        rcases hInv r (List.mem_cons_of_mem q hr) with ⟨hsub, hsup⟩
        constructor
        · intro x hx
          rw [Function.update_apply] at hx
          rw [if_neg hkey] at hx
          exact hsub x hx
        · intro x hx
          rw [Function.update_apply, if_neg hkey]
          exact hsup x hx
      · exact hnd.2

theorem passesFrom_eq_zero_imp {E cs c : ℕ} (hcs : 0 < cs)
    (h : passesFrom E cs c = 0) : E ≤ c := by
  unfold passesFrom at h
  rcases Nat.lt_or_ge c E with hlt | hge
  · exfalso
    have hle : cs ≤ E - c + cs - 1 := by omega
    have hdiv : 0 < (E - c + cs - 1) / cs := Nat.div_pos hle hcs
    omega
  · exact hge

/-- With distinct keys and an evenly dividing chunk size, the chunk loop
adds to each query's rank exactly the closed-form count over the remaining
candidate range. -/
theorem chunkLoop_counts (m : RankModel) (qs : List Query) (bs cs : ℕ)
    (f0 : Filters) (hbs : 0 < bs) (hcs : 0 < cs) (hdvdE : cs ∣ m.numEnt)
    (hnd : (qs.map qKey).Nodup) :
    ∀ fuel c_begin f ranks, passesFrom m.numEnt cs c_begin ≤ fuel →
      cs ∣ c_begin → (∀ q ∈ qs, filtInv f0 f q) → ranks.length = qs.length →
      (chunkLoop m qs bs cs fuel c_begin f ranks).1 =
        List.zipWith (· + ·) ranks (qs.map (fun q => restCount m f0 q c_begin)) := by
  intro fuel
  induction fuel with
  | zero =>
    intro cb f ranks hpass hd hInv hlen
    have hE : m.numEnt ≤ cb := passesFrom_eq_zero_imp hcs (by omega)
    have hmap : qs.map (fun q => restCount m f0 q cb) = List.replicate qs.length 0 := by
      rw [List.map_eq_replicate_iff]
      intro q _
      exact restCount_of_le hE
    rw [hmap]
    rw [zipWith_add_replicate_zero ranks qs.length (le_of_eq hlen)]
    rfl
  | succ fuel ih =>
    intro cb f ranks hpass hd hInv hlen
    by_cases hlt : cb < m.numEnt
    · have hcb_cs : cb + cs ≤ m.numEnt := by
        obtain ⟨a, ha⟩ := hdvdE
        obtain ⟨b, hb⟩ := hd
        have hba : b < a := by
          by_contra hba
          push_neg at hba
          have : cs * a ≤ cs * b := Nat.mul_le_mul_left cs hba
          omega
        have hmul : cs * (b + 1) ≤ cs * a := Nat.mul_le_mul_left cs hba
        calc cb + cs = cs * (b + 1) := by rw [hb]; ring
          _ ≤ cs * a := hmul
          _ = m.numEnt := ha.symm
      simp only [chunkLoop, if_pos hlt]
      rw [batchLoop_eq_processBatch m cs cb bs qs hbs qs.length 0 f (by omega)]
      rw [List.drop_zero]
      rw [processBatch_counts_inv m f0 hcb_cs qs f hInv hnd]
      rw [ih (cb + cs) (processBatch m cs cb qs f).1 _
        (by have := passesFrom_step hlt hcs; omega)
        (dvd_add hd (dvd_refl cs))
        (filtInv_step hnd m cs cb hInv)
        (by rw [List.length_zipWith, hlen, List.length_map, Nat.min_self])]
      rw [zipWith_add_assoc, zipWith_add_map_map]
      congr 1
      apply List.map_congr_left
      intro q _
      exact (restCount_split f0 q hcb_cs).symm
    · have hE : m.numEnt ≤ cb := by omega
      have hmap : qs.map (fun q => restCount m f0 q cb) = List.replicate qs.length 0 := by
        rw [List.map_eq_replicate_iff]
        intro q _
        exact restCount_of_le hE
      rw [hmap, zipWith_add_replicate_zero ranks qs.length (le_of_eq hlen)]
      simp [chunkLoop, hlt]

/-- Closed form of `get_ranking` for an evenly dividing chunk size and
pairwise-distinct query keys: each query's rank is `1` plus the number of
candidates outside `filters[(lhs, rel)] ∪ {rhs}` scoring at least the true
answer (candidates inside it score the `-1e6` sentinel instead). -/
theorem get_ranking_closed (m : RankModel) (qs : List Query) (f0 : Filters)
    (bs cs : ℕ) (hbs : 0 < bs) (hcs : 0 < cs) (hdvd : cs ∣ m.numEnt)
    (hnd : (qs.map qKey).Nodup) :
    (get_ranking m qs f0 bs (cs : ℤ)).1 =
      qs.map (fun q => 1 + closedCount m f0 q) := by
  unfold get_ranking
  have hneg : ¬ ((cs : ℤ) < 0) := by omega
  simp only [if_neg hneg, Int.toNat_natCast]
  rw [chunkLoop_counts m qs bs cs f0 hbs hcs hdvd hnd m.numEnt 0 f0
    (List.replicate qs.length 1) (passesFrom_le_self hcs) (dvd_zero cs)
    (fun q _ => filtInv_init f0 q) (List.length_replicate qs.length 1)]
  have hmap : qs.map (fun q => restCount m f0 q 0) =
      qs.map (fun q => closedCount m f0 q) := by
    apply List.map_congr_left
    intro q _
    exact restCount_zero m f0 q
  rw [hmap, zipWith_replicate_one_map]

/-! ## Helper lemmas: exact filtering above the sentinel, per-query counts -/

/-- When the true answer's score is strictly above the `-1e6` sentinel,
masked candidates are never counted: the rank count ranges over
un-suppressed columns only. -/
theorem rowCount_of_sentinel_lt (E cs cb : ℕ) (filt : List ℕ) (raw : ℕ → ℚ)
    (target : ℚ) (ht : sentinel < target) :
    rowCount E cs cb filt raw target =
      ((Finset.range (min cs (E - cb))).filter
        (fun j => (if cs < E then ¬(cb + j ∈ filt ∧ j < cs) else j ∉ filt) ∧
          target ≤ raw j)).card := by
  unfold rowCount
  congr 1
  apply Finset.filter_congr
  intro j _
  unfold maskedScore
  by_cases hcs : cs < E
  · simp only [if_pos hcs]
    by_cases hm : cb + j ∈ filt ∧ j < cs
    · simp [hm, not_le.mpr ht]
    · simp [hm]
  · simp only [if_neg hcs]
    by_cases hm : j ∈ filt
    · simp [hm, not_le.mpr ht]
    · simp [hm]

/-- The count of row `i` in one pass, with the filter list the row
actually sees: the caller's list for its key, extended by the true objects
already appended by the preceding rows of the pass, plus its own. -/
theorem processBatch_counts_at (m : RankModel) (cs cb : ℕ) :
    ∀ (rows : List Query) (f : Filters) (i : ℕ), i < rows.length →
      (processBatch m cs cb rows f).2.getD i 0 =
        rowCount m.numEnt cs cb
          (f (qKey (rows.getD i (0, 0, 0))) ++
            appendedObjs (rows.take i) (qKey (rows.getD i (0, 0, 0))) ++
            [qObj (rows.getD i (0, 0, 0))])
          (fun j => m.bulk (rows.getD i (0, 0, 0)) (cb + j))
          (m.score (rows.getD i (0, 0, 0))) := by
  intro rows
  induction rows with
  | nil => intro f i hi; simp at hi
  | cons q rest ih =>
    intro f i hi
    cases i with
    | zero =>
      simp [processBatch, appendedObjs]
    | succ i =>
      simp only [List.length_cons, Nat.succ_lt_succ_iff] at hi
      have hstep := ih (Function.update f (qKey q) (f (qKey q) ++ [qObj q])) i hi
      simp only [processBatch, List.getD_cons_succ, List.take_succ_cons]
      rw [hstep]
      congr 1
      set r := rest.getD i (0, 0, 0) with hr
      unfold appendedObjs
      rw [List.filter_cons]
      by_cases hk : qKey q = qKey r
      · rw [Function.update_apply, if_pos hk.symm, hk]
        simp [List.append_assoc]
      · rw [Function.update_apply, if_neg (Ne.symm hk)]
        have : (qKey q == qKey r) = false := beq_eq_false_iff_ne.mpr hk
        simp [this]

theorem chunkLoop_stop (m : RankModel) (qs : List Query) (bs cs : ℕ) :
    ∀ fuel c f ranks, m.numEnt ≤ c →
      chunkLoop m qs bs cs fuel c f ranks = (ranks, f) := by
  intro fuel c f ranks h
  cases fuel with
  | zero => rfl
  | succ fuel => simp [chunkLoop, Nat.not_lt.mpr h]

/-- `get_ranking` with the default chunking performs exactly one pass. -/
theorem get_ranking_default_eq (m : RankModel) (qs : List Query) (f0 : Filters)
    (bs : ℕ) (hbs : 0 < bs) :
    (get_ranking m qs f0 bs (-1)).1 =
      List.zipWith (· + ·) (List.replicate qs.length 1)
        (processBatch m m.numEnt 0 qs f0).2 := by
  have hif : (if (-1 : ℤ) < 0 then m.numEnt else (-1 : ℤ).toNat) = m.numEnt := by
    norm_num
  unfold get_ranking
  rw [hif]
  rcases Nat.eq_zero_or_pos m.numEnt with hE | hE
  · have hcnts : (processBatch m m.numEnt 0 qs f0).2 =
        List.replicate qs.length 0 := by
      have hgen : ∀ (rows : List Query) (f : Filters),
          (processBatch m m.numEnt 0 rows f).2 = List.replicate rows.length 0 := by
        intro rows
        induction rows with
        | nil => intro f; rfl
        | cons q rest ihr =>
          intro f
          have hrc : ∀ raw : ℕ → ℚ, rowCount m.numEnt m.numEnt 0
              (f (qKey q) ++ [qObj q]) raw (m.score q) = 0 := by
            intro raw
            unfold rowCount
            rw [hE]
            rfl
          simp only [processBatch, List.length_cons, List.replicate_succ]
          rw [ihr]
          simp [hrc]
      exact hgen qs f0
    have hz : chunkLoop m qs bs m.numEnt m.numEnt 0 f0 (List.replicate qs.length 1) =
        (List.replicate qs.length 1, f0) := by
      rw [hE]
      rfl
    rw [hz, hcnts]
    exact (zipWith_add_replicate_zero _ _ (by simp)).symm
  · obtain ⟨k, hk⟩ := Nat.exists_eq_succ_of_ne_zero (Nat.pos_iff_ne_zero.mp hE)
    rw [hk]
    simp only [chunkLoop]
    rw [if_pos hE]
    rw [batchLoop_eq_processBatch m (k + 1) 0 bs qs hbs qs.length 0 f0 (by omega)]
    rw [List.drop_zero]
    have hstop := chunkLoop_stop m qs bs (k + 1) k (0 + (k + 1))
      (processBatch m (k + 1) 0 qs f0).1
      (List.zipWith (· + ·) (List.replicate qs.length 1)
        (processBatch m (k + 1) 0 qs f0).2) (by omega)
    rw [hstop]

/-- Rank entries never decrease as the chunk loop runs, and the length is
preserved. -/
theorem chunkLoop_ranks_mono (m : RankModel) (qs : List Query) (bs cs : ℕ)
    (hbs : 0 < bs) :
    ∀ fuel c f ranks, ranks.length = qs.length →
      (chunkLoop m qs bs cs fuel c f ranks).1.length = qs.length ∧
      ∀ i, i < qs.length →
        ranks.getD i 0 ≤ (chunkLoop m qs bs cs fuel c f ranks).1.getD i 0 := by
  intro fuel
  induction fuel with
  | zero => intro c f ranks hlen; exact ⟨hlen, fun i _ => le_refl _⟩
  | succ fuel ih =>
    intro c f ranks hlen
    by_cases hlt : c < m.numEnt
    · simp only [chunkLoop, if_pos hlt]
      have hbatch := batchLoop_eq_processBatch m cs c bs qs hbs qs.length 0 f (by omega)
      rw [hbatch, List.drop_zero]
      have hclen : (processBatch m cs c qs f).2.length = qs.length :=
        processBatch_counts_length m cs c qs f
      have hlen' : (List.zipWith (· + ·) ranks (processBatch m cs c qs f).2).length =
          qs.length := by
        rw [List.length_zipWith, hlen, hclen, Nat.min_self]
      rcases ih (c + cs) (processBatch m cs c qs f).1 _ hlen' with ⟨hl, hmono⟩
      refine ⟨hl, fun i hi => ?_⟩
      refine le_trans ?_ (hmono i hi)
      rw [getD_zipWith_add (by omega) (by omega)]
      omega
    · simp only [chunkLoop, if_neg hlt]
      exact ⟨hlen, fun i _ => le_refl _⟩

theorem getD_replicate_one {n i : ℕ} (h : i < n) :
    (List.replicate n (1 : ℕ)).getD i 0 = 1 := by
  induction n generalizing i with
  | zero => omega
  | succ k ih =>
    cases i with
    | zero => rfl
    | succ j =>
      rw [List.replicate_succ, List.getD_cons_succ]
      exact ih (by omega)

/-! ## Claim C1: chunked versus unchunked ranking -/

/-- C1, counterexample.  With two queries sharing the key `(0, 0)` and an
initially empty filter list, `chunk_size = 2` (which divides the 4
candidates evenly) gives ranks `[3, 1]` while the full-candidate
`chunk_size = 4` gives `[4, 1]`: during the second chunk pass the in-place
filter mutation makes the first query also mask the second query's true
object `2`, which a single unchunked pass does not. -/
theorem c1_counterexample :
    (get_ranking cpSharedKey.toRankModel [(0, 0, 1), (0, 0, 2)]
      (fun _ => []) 1000 2).1 = [3, 1] ∧
    (get_ranking cpSharedKey.toRankModel [(0, 0, 1), (0, 0, 2)]
      (fun _ => []) 1000 4).1 = [4, 1] ∧
    ([3, 1] : List ℕ) ≠ [4, 1] := by
  have ht2 : (2 : ℤ).toNat = 2 := rfl
  have ht4 : (4 : ℤ).toNat = 4 := rfl
  refine ⟨?_, ?_, by decide⟩ <;>
    (norm_num [get_ranking, chunkLoop, batchLoop, processBatch, rowCount, maskedScore,
      sentinel, RankModel.bulk, CP.toRankModel, CP.score, CP.getQueries, cpSharedKey,
      qKey, qObj, ht2, ht4, Nat.min_def, Finset.range_succ, Finset.filter_insert,
      Finset.filter_singleton, Finset.range_one, Function.update];
     try decide)

/-- C1, amended.  For a fixed query sequence whose `(lhs, rel)` keys are
pairwise distinct, a fixed filter dictionary and fixed embeddings, any
positive `chunk_size` dividing the candidate count evenly (the full count
included) yields the same ranks as `chunk_size` equal to the full
candidate count. -/
theorem c1_amended (m : RankModel) (qs : List Query) (f0 : Filters)
    (bs cs : ℕ) (hbs : 0 < bs) (hcs : 0 < cs) (hdvd : cs ∣ m.numEnt)
    (hnd : (qs.map qKey).Nodup) :
    (get_ranking m qs f0 bs (cs : ℤ)).1 =
      (get_ranking m qs f0 bs (m.numEnt : ℤ)).1 := by
  rcases Nat.eq_zero_or_pos m.numEnt with hE | hE
  · have h1 : ∀ cz : ℤ, (get_ranking m qs f0 bs cz).1 =
        List.replicate qs.length 1 := by
      intro cz
      unfold get_ranking
      rw [hE]
      rfl
    rw [h1, h1]
  · rw [get_ranking_closed m qs f0 bs cs hbs hcs hdvd hnd,
      get_ranking_closed m qs f0 bs m.numEnt hbs hE (dvd_refl _) hnd]

/-- C1, witness: a concrete chunked run (`chunk_size = 2`, 4 candidates)
with distinct query keys agrees with the unchunked run. -/
theorem c1_witness :
    0 < 1000 ∧ 0 < 2 ∧ 2 ∣ cpDistinctKey.toRankModel.numEnt ∧
      (([(0, 0, 1), (1, 0, 2)] : List Query).map qKey).Nodup ∧
      (get_ranking cpDistinctKey.toRankModel [(0, 0, 1), (1, 0, 2)]
          (fun _ => []) 1000 ((2 : ℕ) : ℤ)).1 =
        (get_ranking cpDistinctKey.toRankModel [(0, 0, 1), (1, 0, 2)]
          (fun _ => []) 1000 ((cpDistinctKey.toRankModel.numEnt : ℕ) : ℤ)).1 :=
  ⟨by norm_num, by norm_num, by decide, by decide,
    c1_amended cpDistinctKey.toRankModel [(0, 0, 1), (1, 0, 2)] (fun _ => [])
      1000 2 (by norm_num) (by norm_num) (by decide) (by decide)⟩

/-! ## Claim C2: exactness of the filter application -/

/-- C2, counterexample.  When the true answer's score is `-2e6 ≤ -1e6`,
the suppressed candidates (score set to the `-1e6` sentinel) still compare
`≥` the target and are counted: with both candidates in the filter set the
returned rank is `3`, although a count over non-filtered candidates only
would give rank `1`. -/
theorem c2_counterexample :
    (get_ranking cpAllFiltered.toRankModel [(0, 0, 0)] fAllFiltered
      1000 (-1)).1 = [3] ∧
    1 + ((Finset.range 2).filter (fun k =>
      ¬(k ∈ fAllFiltered (0, 0) ∨ k = 0) ∧
      cpAllFiltered.toRankModel.score (0, 0, 0) ≤
        cpAllFiltered.toRankModel.bulk (0, 0, 0) k)).card = 1 ∧
    (3 : ℕ) ≠ 1 := by
  refine ⟨?_, ?_, by decide⟩ <;>
    norm_num [get_ranking, chunkLoop, batchLoop, processBatch, rowCount, maskedScore,
      sentinel, RankModel.bulk, CP.toRankModel, CP.score, CP.getQueries, cpAllFiltered,
      fAllFiltered, qKey, qObj, Finset.range_succ, Finset.filter_insert,
      Finset.filter_singleton, Finset.range_one, Function.update]

/-- C2, amended.  Whenever the true answer's score is strictly greater
than the `-1e6` sentinel, candidates whose (chunk-translated) index lies
in the row's filter list contribute nothing to the rank count: the count
ranges over un-suppressed columns only. -/
theorem c2_amended (E cs cb : ℕ) (filt : List ℕ) (raw : ℕ → ℚ) (target : ℚ)
    (ht : sentinel < target) :
    rowCount E cs cb filt raw target =
      ((Finset.range (min cs (E - cb))).filter
        (fun j => (if cs < E then ¬(cb + j ∈ filt ∧ j < cs) else j ∉ filt) ∧
          target ≤ raw j)).card :=
  rowCount_of_sentinel_lt E cs cb filt raw target ht

/-- C2, witness: a concrete row count (3 candidates, candidate `1`
filtered, target `1` above the sentinel) where the filtered candidate is
not counted. -/
theorem c2_witness :
    sentinel < (1 : ℚ) ∧
    rowCount 3 3 0 [1] (fun j => (j : ℚ)) 1 =
      ((Finset.range (min 3 (3 - 0))).filter
        (fun j : ℕ => (if 3 < 3 then ¬(0 + j ∈ [1] ∧ j < 3) else j ∉ [1]) ∧
          (1 : ℚ) ≤ (j : ℚ))).card :=
  ⟨by norm_num [sentinel],
    c2_amended 3 3 0 [1] (fun j => (j : ℚ)) 1 (by norm_num [sentinel])⟩

/-! ## Claim C3: the returned rank is 1 plus the filtered count -/

/-- C3, counterexample.  With the true answer scoring `-2e6` (below the
sentinel), the returned rank is `3`, but `1` plus the number of
non-filtered candidates scoring `≥` the true answer is `2`: the filtered
candidate's sentinel score is also counted. -/
theorem c3_counterexample :
    (get_ranking cpSentinelRank.toRankModel [(0, 0, 1)] (fun _ => [])
      1000 (-1)).1 = [3] ∧
    1 + ((Finset.range 2).filter (fun k => ¬(k = 1) ∧
      cpSentinelRank.toRankModel.score (0, 0, 1) ≤
        cpSentinelRank.toRankModel.bulk (0, 0, 1) k)).card = 2 ∧
    (3 : ℕ) ≠ 2 := by
  refine ⟨?_, ?_, by decide⟩ <;>
    norm_num [get_ranking, chunkLoop, batchLoop, processBatch, rowCount, maskedScore,
      sentinel, RankModel.bulk, CP.toRankModel, CP.score, CP.getQueries, cpSentinelRank,
      qKey, qObj, Finset.range_succ, Finset.filter_insert, Finset.filter_singleton,
      Finset.range_one, Function.update]

/-- C3, amended.  Every returned rank is a positive integer (`≥ 1`) for
any chunk size; and under the default full-candidate chunking, whenever
the query's true score exceeds the `-1e6` sentinel, the rank equals `1`
plus the number of candidates outside the query's *effective* filter set
(the filter list stored for its key when the row is processed — the
caller's list plus the true objects appended in place by the preceding
same-key rows — plus its own true object) whose score is `≥` the true
answer's score. -/
theorem c3_amended (m : RankModel) (qs : List Query) (f0 : Filters)
    (bs i : ℕ) (hbs : 0 < bs) (hi : i < qs.length) :
    (∀ cz : ℤ, 1 ≤ (get_ranking m qs f0 bs cz).1.getD i 0) ∧
    (sentinel < m.score (qs.getD i (0, 0, 0)) →
      (get_ranking m qs f0 bs (-1)).1.getD i 0 =
        1 + ((Finset.range m.numEnt).filter (fun k =>
          k ∉ f0 (qKey (qs.getD i (0, 0, 0))) ++
            appendedObjs (qs.take i) (qKey (qs.getD i (0, 0, 0))) ++
            [qObj (qs.getD i (0, 0, 0))] ∧
          m.score (qs.getD i (0, 0, 0)) ≤
            m.bulk (qs.getD i (0, 0, 0)) k)).card) := by
  constructor
  · intro cz
    unfold get_ranking
    have hmono := chunkLoop_ranks_mono m qs bs
      (if cz < 0 then m.numEnt else cz.toNat) hbs m.numEnt 0 f0
      (List.replicate qs.length 1) (List.length_replicate qs.length 1)
    have h1 := hmono.2 i hi
    rw [getD_replicate_one hi] at h1
    exact h1
  · intro ht
    rw [get_ranking_default_eq m qs f0 bs hbs]
    have hclen : (processBatch m m.numEnt 0 qs f0).2.length = qs.length :=
      processBatch_counts_length m m.numEnt 0 qs f0
    rw [getD_zipWith_add (by simpa using hi) (by omega)]
    rw [getD_replicate_one hi]
    congr 1
    rw [processBatch_counts_at m m.numEnt 0 qs f0 i hi]
    rw [rowCount_of_sentinel_lt _ _ _ _ _ _ ht]
    have hmin : min m.numEnt (m.numEnt - 0) = m.numEnt := by omega
    rw [hmin]
    refine congrArg Finset.card (Finset.filter_congr ?_)
    intro k hk
    rw [if_neg (lt_irrefl m.numEnt), Nat.zero_add]

/-- C3, witness: a concrete default-chunking run (3 candidates, scores
`2, 1, 0`, true answer `1`) whose rank is `1 + 1 = 2`. -/
theorem c3_witness :
    0 < 1000 ∧ (0 : ℕ) < 1 ∧
    (1 ≤ (get_ranking cpRankW.toRankModel [(0, 0, 1)] (fun _ => [])
      1000 (-1)).1.getD 0 0) ∧
    sentinel < cpRankW.toRankModel.score (([(0, 0, 1)] : List Query).getD 0 (0, 0, 0)) ∧
    (get_ranking cpRankW.toRankModel [(0, 0, 1)] (fun _ => []) 1000 (-1)).1.getD 0 0 =
      1 + ((Finset.range cpRankW.toRankModel.numEnt).filter (fun k =>
        k ∉ (fun _ => ([] : List ℕ)) (qKey (([(0, 0, 1)] : List Query).getD 0 (0, 0, 0))) ++
          appendedObjs (([(0, 0, 1)] : List Query).take 0)
            (qKey (([(0, 0, 1)] : List Query).getD 0 (0, 0, 0))) ++
          [qObj (([(0, 0, 1)] : List Query).getD 0 (0, 0, 0))] ∧
        cpRankW.toRankModel.score (([(0, 0, 1)] : List Query).getD 0 (0, 0, 0)) ≤
          cpRankW.toRankModel.bulk (([(0, 0, 1)] : List Query).getD 0 (0, 0, 0)) k)).card := by
  have hsent : sentinel < cpRankW.toRankModel.score
      (([(0, 0, 1)] : List Query).getD 0 (0, 0, 0)) := by
    norm_num [sentinel, CP.toRankModel, CP.score, cpRankW, Finset.range_one]
  have h := c3_amended cpRankW.toRankModel [(0, 0, 1)] (fun _ => []) 1000 0
    (by norm_num) (by norm_num)
  exact ⟨by norm_num, by norm_num, h.1 (-1), hsent, h.2 hsent⟩

/-! ## Claim C10: get_ranking mutates its filters argument -/

/-- C10.  `get_ranking` mutates the `filters` dictionary in place: after
the call, the list stored at each key equals the caller's list followed by
one copy, per chunk pass, of the true objects of all queries with that
key, in processing order.  In particular the lists have grown (for any
present key and a positive number of passes), later same-key queries were
masked against earlier queries' true objects, and a repeated call appends
the same objects again on top of the mutated lists. -/
theorem c10_theorem (m : RankModel) (qs : List Query) (f0 : Filters)
    (bs : ℕ) (cz : ℤ) (hbs : 0 < bs) (hcz : cz < 0 ∨ 0 < cz) (k : ℕ × ℕ) :
    (get_ranking m qs f0 bs cz).2 k =
      f0 k ++ (List.replicate
        (passesFrom m.numEnt (if cz < 0 then m.numEnt else cz.toNat) 0)
        (appendedObjs qs k)).flatten := by
  unfold get_ranking
  rcases Nat.eq_zero_or_pos m.numEnt with hE | hE
  · have hz : chunkLoop m qs bs (if cz < 0 then m.numEnt else cz.toNat)
        m.numEnt 0 f0 (List.replicate qs.length 1) =
        (List.replicate qs.length 1, f0) := by
      rw [hE]
      rfl
    rw [hz, passesFrom_of_le (by omega)]
    simp
  · have hcspos : 0 < if cz < 0 then m.numEnt else cz.toNat := by
      by_cases h : cz < 0
      · rw [if_pos h]; exact hE
      · rw [if_neg h]; omega
    exact chunkLoop_filters m qs bs _ hbs hcspos m.numEnt 0 f0 _
      (passesFrom_le_self hcspos)

/-- C10, witness: two same-key queries, two chunk passes, batch size 1;
the caller's empty filter list for key `(0, 0)` ends as `[1, 2, 1, 2]`. -/
theorem c10_witness :
    0 < 1 ∧ ((2 : ℤ) < 0 ∨ (0 : ℤ) < 2) ∧
    (get_ranking cpSharedKey.toRankModel [(0, 0, 1), (0, 0, 2)]
      (fun _ => []) 1 2).2 (0, 0) = [1, 2, 1, 2] :=
  ⟨Nat.one_pos, Or.inr (by norm_num), by
    have h := c10_theorem cpSharedKey.toRankModel [(0, 0, 1), (0, 0, 2)]
      (fun _ => []) 1 2 Nat.one_pos (Or.inr (by norm_num)) (0, 0)
    rw [h]
    decide⟩

/-! ## Helper lemmas: indexed reading of zipWith/take/drop -/

theorem getD_zipWith_q (f : ℚ → ℚ → ℚ) :
    ∀ (a b : List ℚ) (i : ℕ), i < a.length → i < b.length →
      (List.zipWith f a b).getD i 0 = f (a.getD i 0) (b.getD i 0) := by
  intro a
  induction a with
  | nil => intro b i hi _; simp at hi
  | cons x xs ih =>
    intro b i hia hib
    cases b with
    | nil => simp at hib
    | cons y ys =>
      cases i with
      | zero => rfl
      | succ j =>
        simp only [List.length_cons, Nat.succ_lt_succ_iff] at hia hib
        simpa using ih ys j hia hib

theorem getD_take_q : ∀ (l : List ℚ) (r i : ℕ), i < r →
    (l.take r).getD i 0 = l.getD i 0 := by
  intro l
  induction l with
  | nil => intro r i _; simp
  | cons x xs ih =>
    intro r i hir
    cases r with
    | zero => omega
    | succ s =>
      cases i with
      | zero => rfl
      | succ j =>
        simp only [List.take_succ_cons, List.getD_cons_succ]
        exact ih s j (by omega)

theorem getD_drop_q : ∀ (r : ℕ) (l : List ℚ) (i : ℕ),
    (l.drop r).getD i 0 = l.getD (r + i) 0 := by
  intro r
  induction r with
  | zero => intro l i; rw [List.drop_zero, Nat.zero_add]
  | succ s ih =>
    intro l i
    cases l with
    | nil => simp
    | cons x xs =>
      rw [List.drop_succ_cons, ih xs i]
      have h : s + 1 + i = (s + i) + 1 := by omega
      rw [h, List.getD_cons_succ]

theorem zipWith_sum_q (f : ℚ → ℚ → ℚ) :
    ∀ (a b : List ℚ) (n : ℕ), a.length = n → b.length = n →
      (List.zipWith f a b).sum =
        ∑ i ∈ Finset.range n, f (a.getD i 0) (b.getD i 0) := by
  intro a
  induction a with
  | nil =>
    intro b n ha _
    subst ha
    simp
  | cons x xs ih =>
    intro b n ha hb
    cases b with
    | nil => simp at ha hb; omega
    | cons y ys =>
      cases n with
      | zero => simp at ha
      | succ m =>
        simp only [List.length_cons, Nat.add_right_cancel_iff] at ha hb
        rw [List.zipWith_cons_cons, List.sum_cons, Finset.sum_range_succ']
        rw [ih ys m ha hb]
        simp only [List.getD_cons_succ, List.getD_cons_zero]
        rw [add_comm]

/-! ## Helper lemmas: argmin -/

/-- `argminAux` returns an in-range index whose value is minimal among the
best-so-far and the remaining values (`g` reads the value at an index). -/
theorem argminAux_spec (g : ℕ → ℝ) :
    ∀ (rest : List ℝ) (i bi : ℕ) (bv : ℝ), g bi = bv →
      (∀ t, t < rest.length → g (i + t) = rest.getD t 0) →
      g (argminAux i bi bv rest) ≤ bv ∧
      (∀ t, t < rest.length → g (argminAux i bi bv rest) ≤ rest.getD t 0) ∧
      (argminAux i bi bv rest = bi ∨
        ∃ t, t < rest.length ∧ argminAux i bi bv rest = i + t) := by
  intro rest
  induction rest with
  | nil =>
    intro i bi bv hbi _
    exact ⟨le_of_eq hbi, fun t ht => by simp at ht, Or.inl rfl⟩
  | cons v rest' ih =>
    intro i bi bv hbi hrest
    have hv : g i = v := by
      have := hrest 0 (by simp)
      simpa using this
    have hrest' : ∀ t, t < rest'.length → g (i + 1 + t) = rest'.getD t 0 := by
      intro t ht
      have := hrest (t + 1) (by simp; omega)
      rw [show i + (t + 1) = i + 1 + t by omega] at this
      simpa using this
    by_cases hlt : v < bv
    · rw [argminAux, if_pos hlt]
      rcases ih (i + 1) i v hv hrest' with ⟨h1, h2, h3⟩
      refine ⟨le_trans h1 (le_of_lt hlt), ?_, ?_⟩
      · intro t ht
        cases t with
        | zero => simpa [hv] using h1
        | succ u =>
          simp only [List.length_cons, Nat.succ_lt_succ_iff] at ht
          simpa using h2 u ht
      · rcases h3 with h | ⟨t, ht, heq⟩
        · exact Or.inr ⟨0, by simp, by omega⟩
        · exact Or.inr ⟨t + 1, by simp [Nat.succ_lt_succ ht], by omega⟩
    · rw [argminAux, if_neg hlt]
      rcases ih (i + 1) bi bv hbi hrest' with ⟨h1, h2, h3⟩
      refine ⟨h1, ?_, ?_⟩
      · intro t ht
        cases t with
        | zero =>
          have : bv ≤ v := not_lt.mp hlt
          simpa using le_trans h1 this
        | succ u =>
          simp only [List.length_cons, Nat.succ_lt_succ_iff] at ht
          simpa using h2 u ht
      · rcases h3 with h | ⟨t, ht, heq⟩
        · exact Or.inl h
        · exact Or.inr ⟨t + 1, by simp [Nat.succ_lt_succ ht], by omega⟩

/-- `torch.argmin` on a non-empty list: the returned index is in range and
carries a minimal value. -/
theorem argminL_spec (l : List ℝ) (hne : l ≠ []) :
    argminL l < l.length ∧ ∀ k, k < l.length → l.getD (argminL l) 0 ≤ l.getD k 0 := by
  cases l with
  | nil => exact absurd rfl hne
  | cons v rest =>
    have hspec := argminAux_spec (fun k => (v :: rest).getD k 0) rest 1 0 v rfl
      (fun t _ => by
        show (v :: rest).getD (1 + t) 0 = rest.getD t 0
        rw [show 1 + t = t + 1 by omega, List.getD_cons_succ])
    rcases hspec with ⟨h1, h2, h3⟩
    constructor
    · rw [argminL]
      rcases h3 with h | ⟨t, ht, heq⟩
      · rw [h]; simp
      · rw [heq]; simp; omega
    · intro k hk
      rw [argminL]
      cases k with
      | zero => simpa using h1
      | succ u =>
        simp only [List.length_cons, Nat.succ_lt_succ_iff] at hk
        simpa using h2 u hk

/-- If `j` strictly dominates every other index, the first-minimum argmin
returns `j`. -/
theorem argminL_eq_of_lt (l : List ℝ) (j : ℕ) (hj : j < l.length)
    (h : ∀ k, k < l.length → k ≠ j → l.getD j 0 < l.getD k 0) : argminL l = j := by
  by_contra hne'
  have hnil : l ≠ [] := by
    intro hl
    rw [hl] at hj
    simp at hj
  rcases argminL_spec l hnil with ⟨h1, h2⟩
  have ha := h (argminL l) h1 hne'
  have hb := h2 j hj
  linarith

theorem getD_map_r (g : List ℝ → ℝ) :
    ∀ (Y : List (List ℝ)) (k : ℕ), k < Y.length →
      (Y.map g).getD k 0 = g (Y.getD k []) := by
  intro Y
  induction Y with
  | nil => intro k hk; simp at hk
  | cons y ys ih =>
    intro k hk
    cases k with
    | zero => rfl
    | succ u =>
      simp only [List.length_cons, Nat.succ_lt_succ_iff] at hk
      simpa using ih u hk

theorem shifted_sum_nonneg (x : List ℝ) :
    ∀ y, 0 ≤ (List.zipWith (fun a b => (a - b + eps8) ^ 2) x y).sum := by
  induction x with
  | nil => intro y; simp
  | cons a xs ih =>
    intro y
    cases y with
    | nil => simp
    | cons b ys =>
      rw [List.zipWith_cons_cons, List.sum_cons]
      exact add_nonneg (sq_nonneg _) (ih ys)

/-! ## Claim C5: the cosine path of the nearest-neighbour matcher -/

/-- C5.  The cosine branch of `__closest_vector__` computes the cosine
*similarities* and then takes `torch.argmin`, so it returns the candidate
with the **lowest** similarity — the farthest one.  For query `[1]` and
candidates `[[1], [-1]]` it returns index `1` (similarity `-1`) although
candidate `0` has the strictly higher similarity `1`. -/
theorem c5_code_bug :
    closestVector [1] [[1], [-1]] "cosine" = some (1, [-1]) ∧
    cosineSim [(1 : ℝ)] [-1] < cosineSim [(1 : ℝ)] [1] := by
  have hb1 : (strHas (strLower "cosine") "euclid" ||
      strHas (strLower "cosine") "l2") = false := by decide
  have hb2 : strHas (strLower "cosine") "cos" = true := by decide
  have hc1 : cosineSim [(1 : ℝ)] [1] = 1 := by
    norm_num [cosineSim, rdot, sqnorm, eps8, Real.sqrt_one]
  have hc2 : cosineSim [(1 : ℝ)] [-1] = -1 := by
    norm_num [cosineSim, rdot, sqnorm, eps8, Real.sqrt_one]
  constructor
  · simp only [closestVector, hb1, hb2, Bool.false_eq_true, if_false, if_true,
      List.map_cons, List.map_nil, hc1, hc2]
    norm_num [argminL, argminAux]
  · rw [hc1, hc2]
    norm_num

/-! ## Claim C6: unrecognized metric / strategy -/

/-- C6, counterexample.  An unrecognized *metric* does not report a usage
error: neither branch runs, and `__closest_matrix__` returns its initial
empty list as a normal (`some`) result instead of `None`. -/
theorem c6_counterexample :
    closestMatrix [[1]] [[1]] "manhattan" "fast" = some (CMRes.listRes []) ∧
    some (CMRes.listRes []) ≠ (none : Option CMRes) := by
  constructor
  · have hb1 : (strHas (strLower "manhattan") "euclid" ||
        strHas (strLower "manhattan") "l2") = false := by decide
    have hb2 : strHas (strLower "manhattan") "cos" = false := by decide
    simp [closestMatrix, hb1, hb2]
  · simp

/-- C6, amended.  With a Euclidean metric but an unrecognized
distance-computation strategy, `__closest_matrix__` reports the error and
returns no result (`None`, via the printed bare `raise` caught by the
enclosing handler); with an unrecognized metric it instead silently
returns the initial empty list. -/
theorem c6_amended (objM searchL : List (List ℝ)) (metric method : String)
    (hmet : (strHas (strLower metric) "euclid" ||
      strHas (strLower metric) "l2") = true)
    (hf : strHas (strLower method) "fast" = false)
    (hs : strHas (strLower method) "stable" = false) :
    closestMatrix objM searchL metric method = none := by
  simp [closestMatrix, hmet, hf, hs]

/-- C6, witness: metric `"l2"` with strategy `"quantum"` yields `None`. -/
theorem c6_witness :
    (strHas (strLower "l2") "euclid" || strHas (strLower "l2") "l2") = true ∧
    strHas (strLower "quantum") "fast" = false ∧
    strHas (strLower "quantum") "stable" = false ∧
    closestMatrix [[1]] [[1]] "l2" "quantum" = none :=
  ⟨by decide, by decide, by decide,
    c6_amended [[1]] [[1]] "l2" "quantum" (by decide) (by decide) (by decide)⟩

/-! ## Claim C7: fast versus stable Euclidean strategies -/

/-- C7, counterexample.  The stable path computes
`torch.pairwise_distance(x, y, eps=1e-8) = ‖x - y + eps‖`, whose `eps`
shift can flip the order of close distances: for query `[0]` and
candidates `[[-1], [1 + 1e-8]]` the fast path (exact squared distances
`[1, (1+1e-8)²]`) returns index `0`, while the stable path (shifted
distances `[1 + 1e-8, 1]`) returns index `1`. -/
theorem c7_counterexample :
    closestMatrix [[0]] [[-1], [1 + eps8]] "l2" "fast" =
      some (CMRes.fastRes [(0, 1)]) ∧
    closestMatrix [[0]] [[-1], [1 + eps8]] "l2" "stable" =
      some (CMRes.listRes [some (1, [1 + eps8])]) ∧
    (0 : ℕ) ≠ 1 := by
  have hmet : (strHas (strLower "l2") "euclid" ||
      strHas (strLower "l2") "l2") = true := by decide
  have hfast : strHas (strLower "fast") "fast" = true := by decide
  have hstf : strHas (strLower "stable") "fast" = false := by decide
  have hsts : strHas (strLower "stable") "stable" = true := by decide
  have hs1 : sqnorm [(0 : ℝ)] + sqnorm [-1] - 2 * rdot [0] [-1] = 1 := by
    norm_num [sqnorm, rdot]
  have hs2 : sqnorm [(0 : ℝ)] + sqnorm [1 + eps8] - 2 * rdot [0] [1 + eps8] =
      (1 + eps8) ^ 2 := by
    norm_num [sqnorm, rdot, eps8]
  have hd1 : pairwiseDist [0] [-1] = 1 + eps8 := by
    rw [pairwiseDist]
    have h : (List.zipWith (fun a b => (a - b + eps8) ^ 2) [(0 : ℝ)] [-1]).sum =
        (1 + eps8) ^ 2 := by
      norm_num [eps8]
    rw [h, Real.sqrt_sq (by norm_num [eps8])]
  have hd2 : pairwiseDist [0] [1 + eps8] = 1 := by
    rw [pairwiseDist]
    have h : (List.zipWith (fun a b => (a - b + eps8) ^ 2) [(0 : ℝ)]
        [1 + eps8]).sum = 1 := by
      norm_num [eps8]
    rw [h, Real.sqrt_one]
  refine ⟨?_, ?_, by omega⟩
  · simp only [closestMatrix, hmet, hfast, if_true, expandedPairwiseDistances,
      List.map_cons, List.map_nil, List.isEmpty_cons, Bool.false_and,
      Bool.false_eq_true, if_false, hs1, hs2]
    norm_num [argminL, argminAux, eps8]
  · simp only [closestMatrix, closestVector, hmet, hstf, hsts,
      Bool.false_eq_true, if_false, if_true, List.map_cons, List.map_nil,
      hd1, hd2]
    norm_num [argminL, argminAux, eps8]

/-- C7, amended.  The two strategies agree on the returned index whenever
the fast minimizer `j` also strictly minimizes the `eps`-shifted squared
distances `Σᵢ (xᵢ - yᵢ + 1e-8)²` that the stable path compares (in
particular whenever the margin of `j` exceeds the `eps`-shift effect); the
fast path reports the squared distance alongside, while the stable path
reports the matched candidate vector instead of a distance. -/
theorem c7_amended (x : List ℝ) (Y : List (List ℝ)) (j : ℕ) (hne : Y ≠ [])
    (hj : argminL (Y.map (fun y => sqnorm x + sqnorm y - 2 * rdot x y)) = j)
    (hdom : ∀ k, k < Y.length → k ≠ j →
      (List.zipWith (fun a b => (a - b + eps8) ^ 2) x (Y.getD j [])).sum <
        (List.zipWith (fun a b => (a - b + eps8) ^ 2) x (Y.getD k [])).sum) :
    closestMatrix [x] Y "l2" "fast" =
      some (CMRes.fastRes
        [(j, (Y.map (fun y => sqnorm x + sqnorm y - 2 * rdot x y)).getD j 0)]) ∧
    closestMatrix [x] Y "l2" "stable" =
      some (CMRes.listRes [some (j, Y.getD j [])]) := by
  have hmet : (strHas (strLower "l2") "euclid" ||
      strHas (strLower "l2") "l2") = true := by decide
  have hfast : strHas (strLower "fast") "fast" = true := by decide
  have hstf : strHas (strLower "stable") "fast" = false := by decide
  have hsts : strHas (strLower "stable") "stable" = true := by decide
  have hYe : Y.isEmpty = false := by
    cases Y with
    | nil => exact absurd rfl hne
    | cons y ys => rfl
  have hjlt : j < Y.length := by
    have hmne : Y.map (fun y => sqnorm x + sqnorm y - 2 * rdot x y) ≠ [] := by
      intro hcon
      exact hne (List.map_eq_nil_iff.mp hcon)
    have := (argminL_spec _ hmne).1
    rw [hj, List.length_map] at this
    exact this
  constructor
  · simp only [closestMatrix, hmet, hfast, if_true, expandedPairwiseDistances,
      List.map_cons, List.map_nil, hYe, Bool.false_and, Bool.false_eq_true,
      if_false, hj]
  · have hvec : closestVector x Y "l2" = some (j, Y.getD j []) := by
      have hdists : argminL (Y.map (fun y => pairwiseDist x y)) = j := by
        apply argminL_eq_of_lt
        · rw [List.length_map]; exact hjlt
        · intro k hk hkj
          rw [List.length_map] at hk
          rw [getD_map_r _ Y k hk, getD_map_r _ Y j hjlt]
          unfold pairwiseDist
          exact Real.sqrt_lt_sqrt (shifted_sum_nonneg x (Y.getD j []))
            (hdom k hk hkj)
      have hde : (Y.map (fun y => pairwiseDist x y)).isEmpty = false := by
        cases Y with
        | nil => exact absurd rfl hne
        | cons y ys => rfl
      simp only [closestVector, hmet, if_true]
      simp only [hde, Bool.false_eq_true, if_false, hdists]
    simp only [closestMatrix, hmet, hstf, hsts, Bool.false_eq_true, if_false,
      if_true, List.map_cons, List.map_nil, hvec]

/-- C7, witness: query `[0]`, candidates `[[3], [1]]`; both strategies
return index `1`. -/
theorem c7_witness :
    ([[3], [1]] : List (List ℝ)) ≠ [] ∧
    closestMatrix [[0]] [[3], [1]] "l2" "fast" =
      some (CMRes.fastRes
        [(1, (([[3], [1]] : List (List ℝ)).map
          (fun y => sqnorm [0] + sqnorm y - 2 * rdot [0] y)).getD 1 0)]) ∧
    closestMatrix [[0]] [[3], [1]] "l2" "stable" =
      some (CMRes.listRes [some (1, ([[3], [1]] : List (List ℝ)).getD 1 [])]) := by
  have hj : argminL (([[3], [1]] : List (List ℝ)).map
      (fun y => sqnorm [0] + sqnorm y - 2 * rdot [0] y)) = 1 := by
    norm_num [argminL, argminAux, sqnorm, rdot]
  have hdom : ∀ k, k < ([[3], [1]] : List (List ℝ)).length → k ≠ 1 →
      (List.zipWith (fun a b => (a - b + eps8) ^ 2) [(0 : ℝ)]
        (([[3], [1]] : List (List ℝ)).getD 1 [])).sum <
      (List.zipWith (fun a b => (a - b + eps8) ^ 2) [(0 : ℝ)]
        (([[3], [1]] : List (List ℝ)).getD k [])).sum := by
    intro k hk hkj
    have hk2 : k < 2 := by simpa using hk
    interval_cases k
    · norm_num [eps8]
    · omega
  have h := c7_amended [0] [[3], [1]] 1 (by simp) hj hdom
  exact ⟨by simp, h.1, h.2⟩

/-! ## Claim C8: the ComplEx bilinear closed form -/

/-- C8.  `ComplEx.score` — implemented by slicing each embedding into
real/imaginary halves and combining them elementwise — equals the
closed-form bilinear sum over the `rank` complex dimensions. -/
theorem c8_theorem (c : ComplExM) (x : Query)
    (hl : (c.emb0 x.1).length = 2 * c.rank)
    (hr : (c.emb1 x.2.1).length = 2 * c.rank)
    (ho : (c.emb0 x.2.2).length = 2 * c.rank) :
    c.score x = ∑ i ∈ Finset.range c.rank,
      (((c.emb0 x.1).getD i 0 * (c.emb1 x.2.1).getD i 0 -
        (c.emb0 x.1).getD (c.rank + i) 0 * (c.emb1 x.2.1).getD (c.rank + i) 0) *
        (c.emb0 x.2.2).getD i 0 +
      ((c.emb0 x.1).getD i 0 * (c.emb1 x.2.1).getD (c.rank + i) 0 +
        (c.emb0 x.1).getD (c.rank + i) 0 * (c.emb1 x.2.1).getD i 0) *
        (c.emb0 x.2.2).getD (c.rank + i) 0) := by
  simp only [ComplExM.score, vmul, vadd, vsub]
  rw [zipWith_sum_q (· + ·) _ _ c.rank
    (by simp only [List.length_zipWith, List.length_take, List.length_drop,
      hl, hr, ho]; omega)
    (by simp only [List.length_zipWith, List.length_take, List.length_drop,
      hl, hr, ho]; omega)]
  apply Finset.sum_congr rfl
  intro i hi
  rw [Finset.mem_range] at hi
  rw [getD_zipWith_q (· * ·) _ _ i
    (by simp only [List.length_zipWith, List.length_take, List.length_drop,
      hl, hr, ho]; omega)
    (by simp only [List.length_zipWith, List.length_take, List.length_drop,
      hl, hr, ho]; omega)]
  rw [getD_zipWith_q (· * ·) _ _ i
    (by simp only [List.length_zipWith, List.length_take, List.length_drop,
      hl, hr, ho]; omega)
    (by simp only [List.length_zipWith, List.length_take, List.length_drop,
      hl, hr, ho]; omega)]
  rw [getD_zipWith_q (· - ·) _ _ i
    (by simp only [List.length_zipWith, List.length_take, List.length_drop,
      hl, hr, ho]; omega)
    (by simp only [List.length_zipWith, List.length_take, List.length_drop,
      hl, hr, ho]; omega)]
  rw [getD_zipWith_q (· + ·) _ _ i
    (by simp only [List.length_zipWith, List.length_take, List.length_drop,
      hl, hr, ho]; omega)
    (by simp only [List.length_zipWith, List.length_take, List.length_drop,
      hl, hr, ho]; omega)]
  rw [getD_zipWith_q (· * ·) ((c.emb0 x.1).take c.rank) _ i
    (by simp only [List.length_take, hl]; omega)
    (by simp only [List.length_take, hr]; omega)]
  rw [getD_zipWith_q (· * ·) ((c.emb0 x.1).drop c.rank) _ i
    (by simp only [List.length_drop, hl]; omega)
    (by simp only [List.length_drop, hr]; omega)]
  rw [getD_zipWith_q (· * ·) ((c.emb0 x.1).take c.rank) _ i
    (by simp only [List.length_take, hl]; omega)
    (by simp only [List.length_drop, hr]; omega)]
  rw [getD_zipWith_q (· * ·) ((c.emb0 x.1).drop c.rank) _ i
    (by simp only [List.length_drop, hl]; omega)
    (by simp only [List.length_take, hr]; omega)]
  rw [getD_take_q _ _ _ hi, getD_take_q _ _ _ hi, getD_take_q _ _ _ hi]
  rw [getD_drop_q, getD_drop_q, getD_drop_q]

/-- C8, witness: the rank-2 scenario with subject/object `(1, 0, 1, 0)`
and relation `(1, 0, 0, 0)` — the score is the closed-form value `2`. -/
theorem c8_witness :
    (ceScenario.emb0 0).length = 2 * ceScenario.rank ∧
    (ceScenario.emb1 0).length = 2 * ceScenario.rank ∧
    (ceScenario.emb0 1).length = 2 * ceScenario.rank ∧
    ceScenario.score (0, 0, 1) = ∑ i ∈ Finset.range ceScenario.rank,
      (((ceScenario.emb0 0).getD i 0 * (ceScenario.emb1 0).getD i 0 -
        (ceScenario.emb0 0).getD (ceScenario.rank + i) 0 *
          (ceScenario.emb1 0).getD (ceScenario.rank + i) 0) *
        (ceScenario.emb0 1).getD i 0 +
      ((ceScenario.emb0 0).getD i 0 *
          (ceScenario.emb1 0).getD (ceScenario.rank + i) 0 +
        (ceScenario.emb0 0).getD (ceScenario.rank + i) 0 *
          (ceScenario.emb1 0).getD i 0) *
        (ceScenario.emb0 1).getD (ceScenario.rank + i) 0) ∧
    ceScenario.score (0, 0, 1) = 2 := by
  refine ⟨rfl, rfl, rfl, c8_theorem ceScenario (0, 0, 1) rfl rfl rfl, ?_⟩
  norm_num [ceScenario, ComplExM.score, vmul, vadd, vsub]

/-! ## Claim C9: termination of the optimization loop -/

/-- C9.  For every abstract optimizer (`stepOpt`) and loss evaluation
(`evalLoss`), the `projected_gradient_descent` loop runs at most
`max_steps` iterations (`i` ends at most at `max_steps + 1`); and it stops
strictly before having run `max_steps` iterations exactly when, at some
checkpoint within the first `max_steps - 1` iterations, the improvement
`prev_loss - loss` between consecutive iterations is `≤ 1e-20`.  Running
all `max_steps` iterations without converging returns normally (the loop
has no failure outcome). -/
theorem c9_theorem {σ : Type} (evalLoss : σ → ℚ) (stepOpt : σ → σ)
    (max_steps : ℕ) (s0 : σ) :
    (pgd evalLoss stepOpt max_steps s0).1 - 1 ≤ max_steps ∧
    ((pgd evalLoss stepOpt max_steps s0).1 - 1 < max_steps ↔
      ∃ k, k < max_steps ∧
        prevAt evalLoss stepOpt s0 k - lossAt evalLoss stepOpt s0 k ≤ thr) := by
  have main : ∀ fuel k, fuel + k = max_steps →
      ((pgdLoop evalLoss stepOpt max_steps fuel (k + 1)
          (prevAt evalLoss stepOpt s0 k) (lossAt evalLoss stepOpt s0 k)
          (stepOpt^[k] s0)).1 - 1 ≤ max_steps) ∧
      ((pgdLoop evalLoss stepOpt max_steps fuel (k + 1)
          (prevAt evalLoss stepOpt s0 k) (lossAt evalLoss stepOpt s0 k)
          (stepOpt^[k] s0)).1 - 1 < max_steps ↔
        ∃ j, k ≤ j ∧ j < max_steps ∧
          prevAt evalLoss stepOpt s0 j - lossAt evalLoss stepOpt s0 j ≤ thr) := by
    intro fuel
    induction fuel with
    | zero =>
      intro k hk
      simp only [pgdLoop]
      constructor
      · omega
      · constructor
        · intro h; omega
        · rintro ⟨j, hj1, hj2, _⟩; omega
    | succ fuel ih =>
      intro k hk
      by_cases hD : thr < prevAt evalLoss stepOpt s0 k - lossAt evalLoss stepOpt s0 k
      · have hguard : k + 1 ≤ max_steps ∧
            thr < prevAt evalLoss stepOpt s0 k - lossAt evalLoss stepOpt s0 k :=
          ⟨by omega, hD⟩
        simp only [pgdLoop, if_pos hguard]
        have hprev : lossAt evalLoss stepOpt s0 k = prevAt evalLoss stepOpt s0 (k + 1) := rfl
        have hloss : evalLoss (stepOpt^[k] s0) = lossAt evalLoss stepOpt s0 (k + 1) := rfl
        have hstate : stepOpt (stepOpt^[k] s0) = stepOpt^[k + 1] s0 :=
          (Function.iterate_succ_apply' stepOpt k s0).symm
        rw [hprev, hloss, hstate]
        rcases ih (k + 1) (by omega) with ⟨ih1, ih2⟩
        refine ⟨ih1, ih2.trans ?_⟩
        constructor
        · rintro ⟨j, hj1, hj2, hj3⟩
          exact ⟨j, by omega, hj2, hj3⟩
        · rintro ⟨j, hj1, hj2, hj3⟩
          refine ⟨j, ?_, hj2, hj3⟩
          rcases Nat.eq_or_lt_of_le hj1 with rfl | h
          · exact absurd hj3 (by exact not_le.mpr hD)
          · omega
      · have hguard : ¬(k + 1 ≤ max_steps ∧
            thr < prevAt evalLoss stepOpt s0 k - lossAt evalLoss stepOpt s0 k) := by
          intro hcon
          exact hD hcon.2
        simp only [pgdLoop, if_neg hguard]
        constructor
        · omega
        · constructor
          · intro _
            exact ⟨k, le_refl k, by omega, not_lt.mp hD⟩
          · intro _
            omega
  have h0 := main max_steps 0 (by omega)
  simp only [Function.iterate_zero_apply] at h0
  have hpgd : pgd evalLoss stepOpt max_steps s0 =
      pgdLoop evalLoss stepOpt max_steps max_steps 1 1000 999 s0 := rfl
  rw [hpgd]
  have hp0 : prevAt evalLoss stepOpt s0 0 = 1000 := rfl
  have hl0 : lossAt evalLoss stepOpt s0 0 = 999 := rfl
  rw [hp0, hl0] at h0
  refine ⟨h0.1, h0.2.trans ?_⟩
  constructor
  · rintro ⟨j, _, hj2, hj3⟩
    exact ⟨j, hj2, hj3⟩
  · rintro ⟨j, hj1, hj2⟩
    exact ⟨j, Nat.zero_le j, hj1, hj2⟩

/-! ## Claim C4: CP.score_emb -/

/-- C4, counterexample.  On a batch of two rows with per-row real-product
scores `0` and `6`, `CP.score_emb` returns the single scalar `3` — the
mean over the batch — not one score per row (and `3` is neither row's
score). -/
theorem c4_counterexample :
    CP.score_emb [[0], [2]] [[1], [1]] [[5], [3]] = 3 ∧
    rowTriProd [0] [1] [5] = 0 ∧ rowTriProd [2] [1] [3] = 6 ∧
    (3 : ℚ) ≠ 0 ∧ (3 : ℚ) ≠ 6 := by
  refine ⟨?_, by norm_num [rowTriProd], by norm_num [rowTriProd], by norm_num, by norm_num⟩
  norm_num [CP.score_emb]

/-- C4, amended.  For equal batch sizes `n`, `CP.score_emb` returns one
scalar for the whole batch: the mean over the `n` rows of the per-row
real-product scores `Σᵢ subjectᵢ * relationᵢ * objectᵢ` (for `n = 1` this
is the single row's score). -/
theorem c4_amended (L R O : List (List ℚ)) (n : ℕ)
    (hL : L.length = n) (hR : R.length = n) (hO : O.length = n) :
    CP.score_emb L R O =
      (∑ k ∈ Finset.range n,
        rowTriProd (L.getD k []) (R.getD k []) (O.getD k [])) / n := by
  have hsum : ∀ (L R O : List (List ℚ)) (n : ℕ), L.length = n → R.length = n →
      O.length = n →
      (List.zipWith (fun lr o => (List.zipWith (· * ·) lr o).sum)
        (List.zipWith (fun l r => List.zipWith (· * ·) l r) L R) O).sum =
        ∑ k ∈ Finset.range n,
          rowTriProd (L.getD k []) (R.getD k []) (O.getD k []) := by
    intro L
    induction L with
    | nil =>
      intro R O n hL _ _
      subst hL
      simp
    | cons l Ls ih =>
      intro R O n hL hR hO
      cases R with
      | nil => simp at hL hR; omega
      | cons r Rs =>
        cases O with
        | nil => simp at hL hO; omega
        | cons o Os =>
          cases n with
          | zero => simp at hL
          | succ m =>
            simp only [List.length_cons, Nat.add_right_cancel_iff] at hL hR hO
            rw [List.zipWith_cons_cons, List.zipWith_cons_cons, List.sum_cons]
            rw [Finset.sum_range_succ']
            rw [ih Rs Os m hL hR hO]
            simp only [List.getD_cons_succ, List.getD_cons_zero]
            rw [add_comm]
            rfl
  have hlen : (List.zipWith (fun lr o => (List.zipWith (· * ·) lr o).sum)
      (List.zipWith (fun l r => List.zipWith (· * ·) l r) L R) O).length = n := by
    simp [List.length_zipWith, hL, hR, hO]
  simp only [CP.score_emb]
  rw [hsum L R O n hL hR hO, hlen]

/-- C4, witness: a two-row batch with rows scoring `3` and `10`,
`score_emb` returning their mean. -/
theorem c4_witness :
    ([[1], [2]] : List (List ℚ)).length = 2 ∧
    ([[1], [1]] : List (List ℚ)).length = 2 ∧
    ([[3], [5]] : List (List ℚ)).length = 2 ∧
    CP.score_emb [[1], [2]] [[1], [1]] [[3], [5]] =
      (∑ k ∈ Finset.range 2,
        rowTriProd (([[1], [2]] : List (List ℚ)).getD k [])
          (([[1], [1]] : List (List ℚ)).getD k [])
          (([[3], [5]] : List (List ℚ)).getD k [])) / 2 :=
  ⟨rfl, rfl, rfl, c4_amended [[1], [2]] [[1], [1]] [[3], [5]] 2 rfl rfl rfl⟩
